import Mathlib

/-!
Verification of the IFEM time-integration and sparse-assembly core.

The development shallowly embeds, over exact rational arithmetic:
  * the Newmark implicit time integrator driven by the single-DOF
    oscillator test (`TestNewmark.C`),
  * the time-step advancement bookkeeping (`advanceStep`),
  * the sparse-matrix assembly / init / solve engine (`SparseMatrix`),
  * the 3D Lagrange scalar field (`LagrangeField3D.C`),
  * the global L2-projection driver (`GlbL2projector.C`).
-/

set_option autoImplicit false

attribute [local semireducible] Rat.add Rat.mul Rat.sub Rat.inv

namespace IFEM

/-- Absolute value on rationals, written so that it evaluates by `decide`. -/
def ratAbs (q : ℚ) : ℚ := if q < 0 then -q else q

/-- Approximation within relative tolerance: `x` matches `r` up to `tol`. -/
def relClose (x r tol : ℚ) : Prop := ratAbs (x - r) ≤ tol * ratAbs r

instance (x r tol : ℚ) : Decidable (relClose x r tol) := by
  unfold relClose; infer_instance

/-! ## Newmark time integration (single-DOF oscillator)

Modelled from the spec: the `NewmarkSIM` implementation is not part of the
source excerpt (only its test `TestNewmark.C` and the headers are).  The
predictor and corrector relations follow the spec's section 4.3:
`u_pred = u + dt·v + dt²/2·(1−2β)·a`, `v_pred = v + dt·(1−γ)·a`, and the
converged corrector solves dynamic equilibrium `M·a' = F − K·u'` together
with the Newmark relations `u' = u_pred + β·dt²·a'`, `v' = v_pred + γ·dt·a'`.
-/

/-- Kinematic state of the single-DOF oscillator: displacement, velocity,
acceleration. -/
structure NmState where
  u : ℚ
  v : ℚ
  a : ℚ
  deriving DecidableEq, Repr

/-- Modelled from the spec: the predictor part of `NewmarkSIM::advanceStep`,
`u_pred = u + dt·v + dt²/2·(1−2β)·a`, `v_pred = v + dt·(1−γ)·a`; the
acceleration is untouched by the predictor. -/
def advancePredict (beta gamma dt : ℚ) (s : NmState) : NmState :=
  { u := s.u + dt * s.v + dt * dt / 2 * (1 - 2 * beta) * s.a
    v := s.v + dt * (1 - gamma) * s.a
    a := s.a }

/-- Modelled from the spec: the converged corrector of `NewmarkSIM::solveStep`
for the linear single-DOF system `M·a + K·u = F`; the Newton loop converges in
one iteration on a linear problem, landing on the unique solution of dynamic
equilibrium combined with the Newmark update relations. -/
def solveCorrect (M K F beta gamma dt : ℚ) (s : NmState) : NmState :=
  let a2 := (F - K * s.u) / (M + K * beta * (dt * dt))
  { u := s.u + beta * (dt * dt) * a2
    v := s.v + gamma * dt * a2
    a := a2 }

/-- One full Newmark time step: predictor followed by the converged
corrector. -/
def nmStep (M K F beta gamma dt : ℚ) (s : NmState) : NmState :=
  solveCorrect M K F beta gamma dt (advancePredict beta gamma dt s)

/-- The state after `n` Newmark time steps from initial state `s0`. -/
def nmRun (M K F beta gamma dt : ℚ) (s0 : NmState) : Nat → NmState
  | 0 => s0
  | n + 1 => nmStep M K F beta gamma dt (nmRun M K F beta gamma dt s0 n)

/-! ## Direct sparse solve, modelled as exact Gaussian elimination

Modelled from the spec: `SparseMatrix::solve` converts the matrix to a
solver-ready layout, factorizes and back-substitutes, returning failure on a
singular matrix.  The backend (`SuperLU`) is external; here the solve is
Gaussian elimination with explicit failure on a zero pivot column. -/

/-- Picks the first row of the augmented system whose leading coefficient is
nonzero, returning it together with the remaining rows in order.  Returns
`none` when the whole leading column is zero (singular system). -/
def findPivot : List (List ℚ) → Option (List ℚ × List (List ℚ))
  | [] => none
  | r :: rest =>
    if r.headD 0 ≠ 0 then some (r, rest)
    else
      match findPivot rest with
      | some (p, rest2) => some (p, r :: rest2)
      | none => none

/-- Gaussian elimination on an augmented system of `n` equations
(`row = coefficients ++ [rhs]`): pivots, eliminates the leading column,
recurses on the reduced system and back-substitutes. -/
def gaussSolve : Nat → List (List ℚ) → Option (List ℚ)
  | 0, _ => some []
  | n + 1, rows => do
    let (p, rest) ← findPivot rows
    let piv := p.headD 0
    let ptail := p.tail
    let reduced := rest.map fun r =>
      (r.tail).zipWith (fun x y => x - r.headD 0 / piv * y) ptail
    let xs ← gaussSolve n reduced
    let rhs := p.getLastD 0
    let coeffs := ptail.dropLast
    some ((rhs - (List.zipWith (fun c x => c * x) coeffs xs).sum) / piv :: xs)

/-- Solves the square system `A · x = b` (dense row representation of `A`):
failure indicates a singular matrix. -/
def linSolve (A : List (List ℚ)) (b : List ℚ) : Option (List ℚ) :=
  gaussSolve A.length (A.zipWith (fun row bi => row ++ [bi]) b)

/-- Solves `c` stacked right-hand sides held consecutively in one vector,
as the sparse solve does when the right-hand-side vector is a multiple of the
matrix dimension. -/
def chunkSolve (A : List (List ℚ)) : Nat → List ℚ → Option (List ℚ)
  | 0, _ => some []
  | c + 1, B => do
    let s ← linSolve A (B.take A.length)
    let rest ← chunkSolve A c (B.drop A.length)
    some (s ++ rest)

/-- Modelled from the spec: `SparseMatrix::solve` on a right-hand-side vector
whose length is `B.length / A.length` stacked columns; the solution replaces
the right-hand side. -/
def sparseSolve (A : List (List ℚ)) (B : List ℚ) : Option (List ℚ) :=
  chunkSolve A (B.length / A.length) B

/-- Modelled from the spec: `NewmarkSIM::initAcc` solves the mass-only
equilibrium `M·a0 = F0 − K·u0` once at initialization, through the direct
sparse solve on the 1×1 mass matrix; it fails exactly when that solve
fails. -/
def initAcc (M K F u0 : ℚ) : Option (List ℚ) :=
  linSolve [[M]] [F - K * u0]

/-- The single-DOF oscillator run of `TestNewmark.C`: `M = 10`, `K = 1000`,
`F = 1` (`SIM1DOF::assembleSystem`), `β = 0.3025`, `γ = 0.6` (the `Newmark`
fixture), `dt = 1/100` (`runSingleDof`), started from zero displacement and
velocity with the initial acceleration delivered by `initAcc`. -/
def goldenRun (n : Nat) : NmState :=
  nmRun 10 1000 1 (3025 / 10000) (6 / 10) (1 / 100)
    ⟨0, 0, ((initAcc 10 1000 1 0).getD []).headD 0⟩ n

/-! ## Time-step bookkeeping (`advanceStep`)

Modelled from the spec: `advanceStep` advances time and the step counter and
returns `false` once the stop time has been reached, as the loop-termination
signal of the driver loop in `runSingleDof`. -/

/-- The time-step bookkeeping state carried by `TimeStep`. -/
structure TimeStepM where
  time : ℚ
  stepNo : Nat
  deriving DecidableEq, Repr

/-- Modelled from the spec: `advanceStep` returns `false` when the stop time
has been reached; otherwise it advances `time += dt` and the step counter and
returns `true`. -/
def advanceStepB (stopTime dt : ℚ) (tp : TimeStepM) : Bool × TimeStepM :=
  if stopTime ≤ tp.time then (false, tp)
  else (true, { time := tp.time + dt, stepNo := tp.stepNo + 1 })

/-- The sequence of `advanceStep` return values along a run over the given
list of step sizes. -/
def advanceReturns (stopTime : ℚ) (tp : TimeStepM) : List ℚ → List Bool
  | [] => []
  | dt :: ds =>
    let r := advanceStepB stopTime dt tp
    r.1 :: advanceReturns stopTime r.2 ds

/-! ## The editable sparse-entry map of `SparseMatrix`

The `elem : ValueMap` member stores the nonzero entries of the editable
matrix, keyed by 1-based index pairs.  Assembly scatters element matrices
into it; `init()` zeroes all current entries keeping the pattern.  The
member functions (`SparseMatrix.C`) are not in the source excerpt, so they
are modelled from the spec and the header documentation in `SIMinput.h`. -/

/-- A 1-based matrix index pair, mirroring `IJPair`. -/
abbrev IJPair := Nat × Nat

/-- The editable sparse-entry map, mirroring `ValueMap`: an association list
from index pairs to values (first binding wins on lookup). -/
abbrev ValueMap := List (IJPair × ℚ)

/-- The value stored at an index pair; a never-touched entry reads as 0. -/
def getVal : ValueMap → IJPair → ℚ
  | [], _ => 0
  | (ij2, w) :: rest, ij => if ij2 = ij then w else getVal rest ij

/-- Accumulates a value into the entry at `ij`, creating the entry (at the
end) on first touch, as `operator()(r,c) += v` does on the entry map. -/
def addAt : ValueMap → IJPair → ℚ → ValueMap
  | [], ij, v => [(ij, v)]
  | (ij2, w) :: rest, ij, v =>
    if ij2 = ij then (ij2, w + v) :: rest else (ij2, w) :: addAt rest ij v

/-- Accumulates a list of indexed contributions in order. -/
def addAll (m : ValueMap) (es : List (IJPair × ℚ)) : ValueMap :=
  es.foldl (fun acc e => addAt acc e.1 e.2) m

/-- The total contribution a list of indexed values makes to the entry at
`ij`. -/
def entrySum : List (IJPair × ℚ) → IJPair → ℚ
  | [], _ => 0
  | (ij2, v) :: rest, ij => (if ij2 = ij then v else 0) + entrySum rest ij

/-- The indexed entries of one element matrix scattered through the element's
global DOF numbers: entry `(a,b)` of the local matrix goes to global position
`(dofs[a], dofs[b])`. -/
def elemEntries (dofs : List Nat) (eM : List (List ℚ)) : List (IJPair × ℚ) :=
  ((dofs.zip eM).map fun di =>
    (dofs.zip di.2).map fun dj => ((di.1, dj.1), dj.2)).flatten

/-- Modelled from the spec: `SparseMatrix::assemble` scatters a local element
matrix into the global entry map through the element's DOF numbers,
accumulating into existing entries. -/
def scatter (m : ValueMap) (dofs : List Nat) (eM : List (List ℚ)) : ValueMap :=
  addAll m (elemEntries dofs eM)

/-- An element contribution: the element's global DOF numbers paired with its
local matrix. -/
abbrev ElemContrib := List Nat × List (List ℚ)

/-- Assembles a list of element contributions in order, as the element
assembly loop does in mesh order. -/
def assembleAll (m : ValueMap) (es : List ElemContrib) : ValueMap :=
  es.foldl (fun acc e => scatter acc e.1 e.2) m

/-- All indexed entries contributed by a list of element contributions, in
assembly order. -/
def allEntries (es : List ElemContrib) : List (IJPair × ℚ) :=
  (es.map fun e => elemEntries e.1 e.2).flatten

/-- Modelled from the spec: `SparseMatrix::init` zeroes all current entries
while preserving the nonzero pattern. -/
def initMat (m : ValueMap) : ValueMap :=
  m.map fun e => (e.1, 0)

/-- The nonzero pattern of the entry map: its index pairs in storage order. -/
def patternOf (m : ValueMap) : List IJPair :=
  m.map fun e => e.1

/-! ## DOF-map topology checks of `assemble` -/

/-- The element topology part of the DOF map (`SAM`): element identifiers
paired with the element's global DOF numbers. -/
structure SAMTopo where
  topo : List (Nat × List Nat)

/-- Looks up the DOF numbers of an element, `none` when the element id is
unknown. -/
def lookupElem : List (Nat × List Nat) → Nat → Option (List Nat)
  | [], _ => none
  | (eid, dofs) :: rest, e => if eid = e then some dofs else lookupElem rest e

/-- Checks that the local element matrix is square of the element's DOF
count. -/
def dimsOK (eM : List (List ℚ)) (dofs : List Nat) : Bool :=
  eM.length == dofs.length && eM.all fun row => row.length == dofs.length

/-- Modelled from the spec: `SparseMatrix::assemble(eM, sam, e)` fails when
the element id is unknown to the DOF map or the local matrix size disagrees
with the element's topology, contributing nothing in that case; otherwise it
scatters the whole contribution. -/
def assembleElem (m : ValueMap) (sam : SAMTopo) (eM : List (List ℚ))
    (e : Nat) : Option ValueMap :=
  match lookupElem sam.topo e with
  | none => none
  | some dofs => if dimsOK eM dofs then some (scatter m dofs eM) else none

/-! ## Factorization reuse in `solve` -/

/-- Modelled from the spec: the solver-facing state of a `SparseMatrix`, its
editable values together with the optimized/factorized snapshot produced by
the last `newLHS` solve (the factorization of a matrix is determined by the
matrix, so the snapshot records the factorized matrix). -/
structure SolverState where
  mat : List (List ℚ)
  fact : Option (List (List ℚ))

/-- Modelled from the spec: `SparseMatrix::solve(B, newLHS)` factorizes the
current matrix when `newLHS` is true or no factorization exists yet, and
otherwise back-substitutes against the factorization kept from the previous
solve. -/
def matSolve (s : SolverState) (B : List ℚ) (newLHS : Bool) :
    Option (List ℚ) × SolverState :=
  match (if newLHS then none else s.fact) with
  | some f => (sparseSolve f B, s)
  | none => (sparseSolve s.mat B, { s with fact := some s.mat })

/-! ## `LagrangeField3D` (from `LagrangeField3D.C`) -/

/-- Nodal values array (`RealArray`), with field values over ℚ in place of
machine doubles. -/
abbrev RealArray := List ℚ

/-- Mirrors `values.resize(nno)` followed by `std::copy(v.begin(), end, ...)` with
`end = v.size() > nno ? v.begin()+nno : v.end()`: the first
`min(v.size(), nno)` entries come from `v`, the rest stay zero. -/
def copyPadded (v : RealArray) (n : Nat) : RealArray :=
  v.take n ++ List.replicate (n - v.length) 0

/-- The data of a `LagrangeField3D`: grid sizes, orders, node and element
counts, and the nodal values array. -/
structure LagrangeField3D where
  n1 : Nat
  n2 : Nat
  n3 : Nat
  p1 : Nat
  p2 : Nat
  p3 : Nat
  nno : Nat
  nelm : Nat
  values : RealArray
  deriving DecidableEq, Repr

/-- The `LagrangeField3D` constructor: `nno = n1*n2*n3`,
`nelm = (n1-1)*(n2-1)*(n3-1)/(p1*p2*p3)`, and the values array resized to
`nno` and filled from `v` (`LagrangeField3D.C`, lines 21–35). -/
def mkLagrangeField3D (n1 n2 n3 p1 p2 p3 : Nat) (v : RealArray) :
    LagrangeField3D :=
  { n1 := n1, n2 := n2, n3 := n3, p1 := p1, p2 := p2, p3 := p3
    nno := n1 * n2 * n3
    nelm := (n1 - 1) * (n2 - 1) * (n3 - 1) / (p1 * p2 * p3)
    values := copyPadded v (n1 * n2 * n3) }

/-- Implements `LagrangeField3D::valueNode`:
`node > 0 && node <= nno ? values(node) : 0.0` (`LagrangeField3D.C`, lines
38–41); `values(node)` is the 1-based access into the values array. -/
def valueNode (f : LagrangeField3D) (node : Nat) : ℚ :=
  if 0 < node ∧ node ≤ f.nno then f.values.getD (node - 1) 0 else 0

/-! ## `GlbL2::solve` and `ASMbase::L2projection` (from `GlbL2projector.C`) -/

/-- A dense `utl::matrix` in column-major storage with 1-based
`(row, column)` access. -/
structure Mat where
  nrows : Nat
  ncols : Nat
  data : List ℚ
  deriving DecidableEq, Repr

/-- The 1-based entry access `m(j,i)` of the column-major dense matrix. -/
def matEntry (m : Mat) (j i : Nat) : ℚ :=
  m.data.getD ((i - 1) * m.nrows + (j - 1)) 0

/-- The field matrix written by `GlbL2::solve`: `sField.resize(ncomp,nnod)`
and `sField(j,i) = B(i+(j-1)*nnod)` where `B` holds the solution. -/
def buildSField (sol : List ℚ) (ncomp nnod : Nat) : Mat :=
  { nrows := ncomp
    ncols := nnod
    data := (List.range (ncomp * nnod)).map fun idx =>
      sol.getD (idx / ncomp + idx % ncomp * nnod) 0 }

/-- Implements `GlbL2::solve` (`GlbL2projector.C`, lines 105–119): solves the
patch-global system in place (`A.solve(B)`), returning `false` on solver
failure with `sField` untouched; on success stores the nodal values of the
projected field, `sField(j,i) = B(i+(j-1)*nnod)` with `nnod = A.dim()` and
`ncomp = B.dim()/nnod`. -/
def glbL2solve (A : List (List ℚ)) (B : List ℚ) (sField : Mat) : Bool × Mat :=
  match sparseSolve A B with
  | none => (false, sField)
  | some sol => (true, buildSField sol (B.length / A.length) A.length)

/-- Implements `ASMbase::L2projection` (`GlbL2projector.C`, lines 122–131): runs the
domain integration assembling the projection system, then
`integrate(...) && gl2.solve(sField)`; the integration is performed by the
(external) patch integrator, so its outcome — `none` for failure, or the
assembled system — is a parameter here. -/
def L2projection (intg : Option (List (List ℚ) × List ℚ)) (sField : Mat) :
    Bool × Mat :=
  match intg with
  | none => (false, sField)
  | some (A, B) => glbL2solve A B sField

/-! # Theorems -/

/-- C2: for every single-DOF mass-spring system with mass `M`, stiffness `K`
and constant force `F`, started from zero displacement, `initAcc` solves the
mass-only equilibrium `M·a0 = F − K·0` and yields `a0 = F/M`; in particular
`a0 = 1/10` for `M = 10`, `F = 1`; and it fails exactly when the mass-only
solve fails, i.e. when the mass matrix `[[M]]` is singular (`M = 0`). -/
theorem initAcc_yields_F_div_M (M K F : ℚ) (hM : M ≠ 0) :
    initAcc M K F 0 = some [F / M]
    ∧ initAcc 10 K 1 0 = some [1 / 10]
    ∧ ∀ M2 : ℚ, (initAcc M2 K F 0 = none ↔ M2 = 0) := by
  have key : ∀ (M2 F2 : ℚ), M2 ≠ 0 → initAcc M2 K F2 0 = some [F2 / M2] := by
    intro M2 F2 h2
    simp only [initAcc, linSolve, gaussSolve, findPivot, List.zipWith,
      List.headD, List.length, List.tail, List.getLastD]
    rw [if_pos (by simpa using h2)]
    simp [Option.bind, mul_zero, sub_zero]
  refine ⟨key M F hM, ?_, ?_⟩
  · have h10 := key 10 1 (by norm_num)
    simpa using h10
  · intro M2
    constructor
    · intro hnone
      by_contra h2
      rw [key M2 F h2] at hnone
      exact Option.noConfusion hnone
    · intro h2
      subst h2
      simp [initAcc, linSolve, gaussSolve, findPivot]

/-- Witness for `initAcc_yields_F_div_M` at `M = 10`, `K = 1000`, `F = 1`. -/
theorem initAcc_yields_F_div_M_witness :
    initAcc 10 1000 1 0 = some [1 / 10] := by
  have h := (initAcc_yields_F_div_M 10 1000 1 (by norm_num)).1
  simpa using h

/-- The run of `advanceStep` produces one return value per attempted step. -/
theorem advanceReturns_length (stop : ℚ) (tp : TimeStepM) (dts : List ℚ) :
    (advanceReturns stop tp dts).length = dts.length := by
  induction dts generalizing tp with
  | nil => rfl
  | cons d ds ih => simp [advanceReturns, ih]

/-- Characterization of each `advanceStep` return value along a run starting
at time `t0`: with nonnegative step sizes, the `k`-th call returns `true`
exactly when the time accumulated before it is still below the stop time. -/
theorem advanceReturns_get (stop : ℚ) (dts : List ℚ) (hpos : ∀ d ∈ dts, 0 < d) :
    ∀ (t0 : ℚ) (s k : Nat), k < dts.length →
      ((advanceReturns stop ⟨t0, s⟩ dts).getD k false = true ↔
        t0 + (dts.take k).sum < stop) := by
  induction dts with
  | nil => intro t0 s k hk; exact absurd hk (by simp)
  | cons d ds ih =>
    intro t0 s k hk
    have hd : 0 < d := hpos d (List.mem_cons_self d ds)
    have hds : ∀ x ∈ ds, 0 < x := fun x hx => hpos x (List.mem_cons_of_mem d hx)
    match k with
    | 0 =>
      simp only [advanceReturns, advanceStepB, List.take_zero, List.sum_nil,
        add_zero]
      split_ifs with h
      · simp only [List.getD_cons_zero]
        constructor
        · intro hf; exact absurd hf (by simp)
        · intro hlt; exact absurd hlt (not_lt.mpr h)
      · simp only [List.getD_cons_zero]
        constructor
        · intro _; exact lt_of_not_le h
        · intro _; trivial
    | k + 1 =>
      have hk2 : k < ds.length := by simpa using hk
      simp only [advanceReturns, advanceStepB]
      split_ifs with h
      · simp only [List.getD_cons_succ]
        rw [ih hds t0 s k hk2]
        have hsum : (0:ℚ) ≤ (ds.take k).sum :=
          List.sum_nonneg fun x hx =>
            le_of_lt (hds x (List.mem_of_mem_take hx))
        have hsum2 : (0:ℚ) ≤ ((d :: ds).take (k+1)).sum := by
          refine List.sum_nonneg fun x hx => ?_
          exact le_of_lt (hpos x (List.mem_of_mem_take hx))
        constructor
        · intro hlt
          exact absurd (lt_of_le_of_lt (le_add_of_nonneg_right hsum) hlt)
            (not_lt.mpr h)
        · intro hlt
          exact absurd (lt_of_le_of_lt (le_add_of_nonneg_right hsum2) hlt)
            (not_lt.mpr h)
      · simp only [List.getD_cons_succ]
        rw [ih hds (t0 + d) (s + 1) k hk2]
        simp only [List.take_succ_cons, List.sum_cons]
        constructor
        · intro hlt; linarith
        · intro hlt; linarith

/-- C3: for every stop time and every sequence of positive step sizes, the
`k`-th call to `advanceStep` returns `true` exactly when the accumulated
time is still strictly below the stop time, and returns `false` exactly once
it has reached or exceeded it; one return value is produced per attempted
step, so the loop neither skips nor double-steps the final interval. -/
theorem advanceStep_stop_condition (stop : ℚ) (dts : List ℚ)
    (hpos : ∀ d ∈ dts, 0 < d) (k : Nat) (hk : k < dts.length) :
    ((advanceReturns stop ⟨0, 0⟩ dts).getD k false = true ↔
      (dts.take k).sum < stop)
    ∧ (advanceReturns stop ⟨0, 0⟩ dts).length = dts.length := by
  refine ⟨?_, advanceReturns_length stop ⟨0, 0⟩ dts⟩
  have h := advanceReturns_get stop dts hpos 0 0 k hk
  simpa using h

/-- Witness for `advanceStep_stop_condition`: three steps of `1/10` with stop
time `1/4`; the third call still returns `true` since `2/10 < 1/4`. -/
theorem advanceStep_stop_condition_witness :
    ((advanceReturns (1/4) ⟨0, 0⟩ [1/10, 1/10, 1/10]).getD 2 false = true ↔
      (([1/10, 1/10, 1/10] : List ℚ).take 2).sum < 1/4)
    ∧ (advanceReturns (1/4) ⟨0, 0⟩ [1/10, 1/10, 1/10]).length = 3 :=
  advanceStep_stop_condition (1/4) [1/10, 1/10, 1/10]
    (by intro d hd; fin_cases hd <;> norm_num) 2 (by norm_num)

set_option maxRecDepth 40000 in
/-- C1: the single-DOF oscillator with `M = 10`, `K = 1000`, `F = 1`,
`dt = 1/100` and Newmark parameters `β = 0.3025`, `γ = 0.6`, run by
`advanceStep`/`solveStep` from zero initial displacement and velocity,
reproduces at step 10 (`t = 0.1`), step 25 (`t = 0.25`) and step 50
(`t = 0.5`) the fixed reference displacement, velocity and acceleration
values, each within relative tolerance `5·10⁻¹²`. -/
theorem newmark_singleDOF_golden :
    (relClose (goldenRun 10).u (457484252515 / 1000000000000000)
        (5 / 1000000000000)
      ∧ relClose (goldenRun 10).v (836844573472 / 100000000000000)
        (5 / 1000000000000)
      ∧ relClose (goldenRun 10).a (542515747485 / 10000000000000)
        (5 / 1000000000000))
    ∧ (relClose (goldenRun 25).u (178698471292 / 100000000000000)
        (5 / 1000000000000)
      ∧ relClose (goldenRun 25).v (592764975245 / 100000000000000)
        (5 / 1000000000000)
      ∧ relClose (goldenRun 25).a (-786984712916 / 10000000000000)
        (5 / 1000000000000))
    ∧ (relClose (goldenRun 50).u (732016593476 / 1000000000000000)
        (5 / 1000000000000)
      ∧ relClose (goldenRun 50).v (-936507563058 / 100000000000000)
        (5 / 1000000000000)
      ∧ relClose (goldenRun 50).a (267983406524 / 10000000000000)
        (5 / 1000000000000)) := by
  decide

/-- Accumulating one value changes exactly the targeted entry, by the
contributed amount. -/
theorem getVal_addAt (m : ValueMap) (key q : IJPair) (v : ℚ) :
    getVal (addAt m key v) q = getVal m q + if key = q then v else 0 := by
  induction m with
  | nil =>
    by_cases h : key = q <;> simp [addAt, getVal, h]
  | cons e rest ih =>
    obtain ⟨ij2, w⟩ := e
    by_cases h1 : ij2 = key
    · subst h1
      by_cases h2 : ij2 = q
      · subst h2; simp [addAt, getVal]
      · simp [addAt, getVal, h2]
    · by_cases h2 : ij2 = q
      · subst h2
        have hkq : key ≠ ij2 := fun hc => h1 hc.symm
        simp [addAt, getVal, h1, hkq]
      · simp [addAt, getVal, h1, h2, ih]

/-- Accumulating a list of indexed values adds their total contribution to
every entry. -/
theorem getVal_addAll (es : List (IJPair × ℚ)) :
    ∀ (m : ValueMap) (q : IJPair),
      getVal (addAll m es) q = getVal m q + entrySum es q := by
  induction es with
  | nil => intro m q; simp [addAll, entrySum]
  | cons e rest ih =>
    intro m q
    obtain ⟨key, v⟩ := e
    have step : addAll m ((key, v) :: rest) = addAll (addAt m key v) rest := rfl
    rw [step, ih (addAt m key v) q, getVal_addAt]
    simp only [entrySum]
    ring

/-- The total contribution splits over list concatenation. -/
theorem entrySum_append (xs ys : List (IJPair × ℚ)) (q : IJPair) :
    entrySum (xs ++ ys) q = entrySum xs q + entrySum ys q := by
  induction xs with
  | nil => simp [entrySum]
  | cons e rest ih =>
    obtain ⟨key, v⟩ := e
    simp only [List.cons_append, entrySum, List.append_eq, ih]
    ring

/-- Assembling a list of elements is accumulating all their indexed
entries. -/
theorem assembleAll_eq_addAll (es : List ElemContrib) :
    ∀ m : ValueMap, assembleAll m es = addAll m (allEntries es) := by
  induction es with
  | nil => intro m; rfl
  | cons e rest ih =>
    intro m
    have h1 : assembleAll m (e :: rest) = assembleAll (scatter m e.1 e.2) rest := rfl
    rw [h1, ih]
    simp only [allEntries, List.map_cons, List.flatten_cons]
    rw [scatter, addAll, addAll, addAll, List.foldl_append]

/-- Every entry of an assembled matrix is the starting value plus the total
contribution of the assembled elements at that position. -/
theorem getVal_assembleAll (es : List ElemContrib) (m : ValueMap) (q : IJPair) :
    getVal (assembleAll m es) q = getVal m q + entrySum (allEntries es) q := by
  rw [assembleAll_eq_addAll, getVal_addAll]

/-- Applying `init` zeroes every entry. -/
theorem getVal_initMat (m : ValueMap) (q : IJPair) :
    getVal (initMat m) q = 0 := by
  induction m with
  | nil => rfl
  | cons e rest ih =>
    by_cases h : e.1 = q
    · simp [initMat, getVal, h]
    · simp only [initMat, List.map_cons, getVal, h, if_false]
      simpa [initMat] using ih

/-- C5: `init()` zeroes all current entries while leaving the nonzero
pattern unchanged, and re-assembling the identical element contributions
into the initialized matrix reproduces the values of the original assembly
(started from any zero-valued matrix, e.g. the pattern produced by
`initAssembly`) exactly. -/
theorem init_pattern_reassembly (m m0 : ValueMap) (es : List ElemContrib)
    (q : IJPair) (h0 : ∀ q2, getVal m0 q2 = 0) :
    patternOf (initMat m) = patternOf m
    ∧ getVal (initMat m) q = 0
    ∧ getVal (assembleAll (initMat (assembleAll m0 es)) es) q
        = getVal (assembleAll m0 es) q := by
  refine ⟨?_, getVal_initMat m q, ?_⟩
  · simp [patternOf, initMat]
  · rw [getVal_assembleAll, getVal_assembleAll, getVal_initMat, h0]

/-- Witness for `init_pattern_reassembly`: a two-DOF element re-assembled
after `init` on the empty (all-zero) initial matrix. -/
theorem init_pattern_reassembly_witness :
    patternOf (initMat [((1, 1), (7:ℚ))]) = patternOf [((1, 1), (7:ℚ))]
    ∧ getVal (initMat [((1, 1), (7:ℚ))]) (1, 1) = 0
    ∧ getVal
        (assembleAll (initMat (assembleAll [] [([1, 2], [[1, 2], [3, 4]])]))
          [([1, 2], [[1, 2], [3, 4]])]) (1, 2)
        = getVal (assembleAll [] [([1, 2], [[1, 2], [3, 4]])]) (1, 2) := by
  have h := init_pattern_reassembly [((1, 1), (7:ℚ))] []
    [([1, 2], [[1, 2], [3, 4]])] (1, 2) (fun _ => rfl)
  have h2 := init_pattern_reassembly [((1, 1), (7:ℚ))] []
    [([1, 2], [[1, 2], [3, 4]])] (1, 1) (fun _ => rfl)
  exact ⟨h.1, h2.2.1, h.2.2⟩

/-- The total contribution of a list of elements, entry by entry, as a sum
over the elements. -/
theorem entrySum_allEntries (es : List ElemContrib) (q : IJPair) :
    entrySum (allEntries es) q
      = (es.map fun e => entrySum (elemEntries e.1 e.2) q).sum := by
  induction es with
  | nil => rfl
  | cons e rest ih =>
    simp only [allEntries, List.map_cons, List.flatten_cons, List.sum_cons]
    rw [entrySum_append]
    simp only [allEntries] at ih
    rw [ih]

/-- C6: assembling the element contributions in any permutation of the
element order yields the same global matrix, entry by entry, as assembling
them in mesh order (exact arithmetic). -/
theorem assembly_order_invariant (m : ValueMap) (es es2 : List ElemContrib)
    (hp : es.Perm es2) (q : IJPair) :
    getVal (assembleAll m es) q = getVal (assembleAll m es2) q := by
  rw [getVal_assembleAll, getVal_assembleAll, entrySum_allEntries,
    entrySum_allEntries]
  exact congrArg (getVal m q + ·)
    (List.Perm.sum_eq (hp.map fun e => entrySum (elemEntries e.1 e.2) q))

/-- Witness for `assembly_order_invariant`: two overlapping elements
assembled in both orders. -/
theorem assembly_order_invariant_witness :
    getVal (assembleAll []
      [([1, 2], [[1, 2], [3, 4]]), ([2, 3], [[5, 6], [7, 8]])]) (2, 2)
    = getVal (assembleAll []
      [([2, 3], [[5, 6], [7, 8]]), ([1, 2], [[1, 2], [3, 4]])]) (2, 2) :=
  assembly_order_invariant []
    [([1, 2], [[1, 2], [3, 4]]), ([2, 3], [[5, 6], [7, 8]])]
    [([2, 3], [[5, 6], [7, 8]]), ([1, 2], [[1, 2], [3, 4]])]
    (List.Perm.swap _ _ _) (2, 2)

/-- C7: `assemble` fails immediately — contributing nothing to the global
matrix — when the element id is unknown to the DOF map or when the local
matrix size disagrees with the element's topology; and conversely a
successful call scatters the whole contribution. -/
theorem assemble_mismatch_fails (m : ValueMap) (sam : SAMTopo)
    (eM : List (List ℚ)) (e : Nat)
    (h : lookupElem sam.topo e = none
      ∨ ∃ dofs, lookupElem sam.topo e = some dofs ∧ dimsOK eM dofs = false) :
    assembleElem m sam eM e = none
    ∧ ∀ m2, assembleElem m sam eM e = some m2 →
        ∃ dofs, lookupElem sam.topo e = some dofs ∧ dimsOK eM dofs = true
          ∧ m2 = scatter m dofs eM := by
  constructor
  · rcases h with hnone | ⟨dofs, hsome, hdim⟩
    · simp [assembleElem, hnone]
    · simp [assembleElem, hsome, hdim]
  · intro m2 hm2
    rcases hlook : lookupElem sam.topo e with _ | dofs
    · simp [assembleElem, hlook] at hm2
    · by_cases hdim : dimsOK eM dofs = true
      · simp only [assembleElem, hlook, hdim, if_true] at hm2
        exact ⟨dofs, rfl, hdim, (Option.some_inj.mp hm2).symm⟩
      · simp [assembleElem, hlook, hdim] at hm2

/-- Witness for `assemble_mismatch_fails`: a 1×1 local matrix on a two-DOF
element. -/
theorem assemble_mismatch_fails_witness :
    assembleElem [] ⟨[(1, [1, 2])]⟩ [[(5:ℚ)]] 1 = none :=
  (assemble_mismatch_fails [] ⟨[(1, [1, 2])]⟩ [[(5:ℚ)]] 1
    (Or.inr ⟨[1, 2], by simp [lookupElem], by decide⟩)).1

/-- C4: solving with `newLHS = true` and then again with `newLHS = false`
against an unchanged left-hand-side matrix produces the same two solutions
as two independent `newLHS = true` solves on that matrix with the
respective right-hand sides. -/
theorem solve_factorization_reuse (A : List (List ℚ))
    (f0 : Option (List (List ℚ))) (b1 b2 : List ℚ) :
    ((matSolve ⟨A, f0⟩ b1 true).1 = (matSolve ⟨A, f0⟩ b1 true).1)
    ∧ (matSolve (matSolve ⟨A, f0⟩ b1 true).2 b2 false).1
        = (matSolve ⟨A, f0⟩ b2 true).1 := by
  exact ⟨rfl, rfl⟩

/-- The values array built by the constructor has exactly `n` entries. -/
theorem copyPadded_length (v : RealArray) (n : Nat) :
    (copyPadded v n).length = n := by
  simp only [copyPadded, List.length_append, List.length_take,
    List.length_replicate]
  omega

/-- C8: `valueNode` is total and never reads the values array out of
bounds: whenever `1 ≤ node ≤ nno` (and the array has its
constructor-established length `nno`) the accessed index `node − 1` is in
bounds and the
stored nodal value is returned; for `node = 0` or `node > nno` the result
is `0`. -/
theorem valueNode_total_safe (f : LagrangeField3D) (node : Nat)
    (hlen : f.values.length = f.nno) :
    (0 < node → node ≤ f.nno →
      node - 1 < f.values.length
        ∧ valueNode f node = f.values.getD (node - 1) 0)
    ∧ ((node = 0 ∨ f.nno < node) → valueNode f node = 0) := by
  constructor
  · intro h1 h2
    refine ⟨by omega, ?_⟩
    simp [valueNode, h1, h2]
  · intro h
    have hc : ¬(0 < node ∧ node ≤ f.nno) := by rcases h with h | h <;> omega
    simp [valueNode, hc]

/-- Witness for `valueNode_total_safe` on a 2×2×1 grid with values
`[5, 6]`: node 2 reads the stored value, node 7 is out of range. -/
theorem valueNode_total_safe_witness :
    (2 - 1 < (mkLagrangeField3D 2 2 1 1 1 1 [5, 6]).values.length
      ∧ valueNode (mkLagrangeField3D 2 2 1 1 1 1 [5, 6]) 2
          = (mkLagrangeField3D 2 2 1 1 1 1 [5, 6]).values.getD 1 0)
    ∧ valueNode (mkLagrangeField3D 2 2 1 1 1 1 [5, 6]) 7 = 0 := by
  constructor
  · exact (valueNode_total_safe (mkLagrangeField3D 2 2 1 1 1 1 [5, 6]) 2
      (by decide)).1 (by decide) (by decide)
  · exact (valueNode_total_safe (mkLagrangeField3D 2 2 1 1 1 1 [5, 6]) 7
      (by decide)).2 (Or.inr (by decide))

/-- C9: the constructor produces a values array of exactly
`nno = n1·n2·n3` entries; the first `min |v| nno` entries are copied from
`v` in order, the remaining entries are zero, and excess entries of `v`
are dropped. -/
theorem constructor_values (n1 n2 n3 p1 p2 p3 : Nat) (v : RealArray)
    (i : Nat) :
    (mkLagrangeField3D n1 n2 n3 p1 p2 p3 v).nno = n1 * n2 * n3
    ∧ (mkLagrangeField3D n1 n2 n3 p1 p2 p3 v).values.length = n1 * n2 * n3
    ∧ (i < min v.length (n1 * n2 * n3) →
        (mkLagrangeField3D n1 n2 n3 p1 p2 p3 v).values.getD i 0 = v.getD i 0)
    ∧ (min v.length (n1 * n2 * n3) ≤ i → i < n1 * n2 * n3 →
        (mkLagrangeField3D n1 n2 n3 p1 p2 p3 v).values.getD i 0 = 0) := by
  refine ⟨rfl, copyPadded_length v _, ?_, ?_⟩
  · intro hi
    have hiv : i < v.length := lt_of_lt_of_le hi (min_le_left _ _)
    have hin : i < n1 * n2 * n3 := lt_of_lt_of_le hi (min_le_right _ _)
    have htake : i < (v.take (n1 * n2 * n3)).length := by
      rw [List.length_take]; omega
    simp only [mkLagrangeField3D, copyPadded, List.getD_eq_getElem?_getD,
      List.getElem?_append_left htake, List.getElem?_take_of_lt hin]
  · intro h1 h2
    have hlen2 : (v.take (n1 * n2 * n3)).length = min (n1 * n2 * n3) v.length :=
      List.length_take _ _
    have hge : (v.take (n1 * n2 * n3)).length ≤ i := by omega
    simp only [mkLagrangeField3D, copyPadded, List.getD_eq_getElem?_getD,
      List.getElem?_append_right hge, List.getElem?_replicate]
    rw [if_pos (by omega)]
    rfl

/-- Witness for `constructor_values`: a 2×2×1 grid built from a 2-entry
input array; entry 1 is copied, entry 3 is zero-padded. -/
theorem constructor_values_witness :
    (mkLagrangeField3D 2 2 1 1 1 1 [5, 6]).nno = 4
    ∧ (mkLagrangeField3D 2 2 1 1 1 1 [5, 6]).values.length = 4
    ∧ (mkLagrangeField3D 2 2 1 1 1 1 [5, 6]).values.getD 1 0
        = ([5, 6] : RealArray).getD 1 0
    ∧ (mkLagrangeField3D 2 2 1 1 1 1 [5, 6]).values.getD 3 0 = 0 := by
  have h1 := constructor_values 2 2 1 1 1 1 [5, 6] 1
  have h3 := constructor_values 2 2 1 1 1 1 [5, 6] 3
  exact ⟨h1.1, h1.2.1, h1.2.2.1 (by decide), h3.2.2.2 (by decide) (by decide)⟩

/-- Reading an in-range position of a tabulated list evaluates the
tabulation function. -/
theorem getD_range_map (f : Nat → ℚ) (n k : Nat) (hk : k < n) :
    ((List.range n).map f).getD k 0 = f k := by
  simp [List.getD_eq_getElem?_getD, List.getElem?_map, List.getElem?_range hk]

/-- Entry access into the field matrix written by `GlbL2::solve`: for
1-based `(j, i)` within `ncomp × nnod`, the entry is solution component
`i + (j−1)·nnod`. -/
theorem matEntry_buildSField (sol : List ℚ) (ncomp nnod j i : Nat)
    (hj1 : 1 ≤ j) (hj2 : j ≤ ncomp) (hi1 : 1 ≤ i) (hi2 : i ≤ nnod) :
    matEntry (buildSField sol ncomp nnod) j i
      = sol.getD (i + (j - 1) * nnod - 1) 0 := by
  obtain ⟨a, rfl⟩ : ∃ a, i = a + 1 := ⟨i - 1, by omega⟩
  obtain ⟨b, rfl⟩ : ∃ b, j = b + 1 := ⟨j - 1, by omega⟩
  have hb : b < ncomp := by omega
  have ha : a < nnod := by omega
  have hidx : a * ncomp + b < ncomp * nnod := by
    calc a * ncomp + b < a * ncomp + ncomp := by omega
      _ = (a + 1) * ncomp := by ring
      _ ≤ nnod * ncomp := Nat.mul_le_mul_right _ (by omega)
      _ = ncomp * nnod := Nat.mul_comm _ _
  have hsimp : (a + 1) - 1 = a := rfl
  simp only [matEntry, buildSField]
  rw [Nat.add_sub_cancel, Nat.add_sub_cancel]
  rw [getD_range_map _ _ _ hidx]
  have hdiv : (a * ncomp + b) / ncomp = a := by
    rw [Nat.mul_comm a ncomp, Nat.mul_add_div (by omega)]
    rw [Nat.div_eq_of_lt hb, Nat.add_zero]
  have hmod : (a * ncomp + b) % ncomp = b := by
    rw [Nat.mul_comm a ncomp, Nat.mul_add_mod]
    exact Nat.mod_eq_of_lt hb
  rw [hdiv, hmod]
  congr 1
  omega

/-- C10: `L2projection` returns `true` exactly when both the domain
integration and the subsequent linear solve succeed; when the integration
fails the solve is never attempted and the output field is unchanged; and
when the solve succeeds the field is resized to `ncomp × nnod` with
`sField(j,i)` equal to solution entry `B(i+(j−1)·nnod)`. -/
theorem L2projection_spec (intg : Option (List (List ℚ) × List ℚ)) (s0 : Mat)
    (A : List (List ℚ)) (B : List ℚ) (sol : List ℚ) (j i : Nat) :
    ((L2projection intg s0).1 = true ↔
      ∃ A2 B2, intg = some (A2, B2) ∧ (sparseSolve A2 B2).isSome = true)
    ∧ (intg = none → L2projection intg s0 = (false, s0))
    ∧ (intg = some (A, B) → sparseSolve A B = none →
        L2projection intg s0 = (false, s0))
    ∧ (intg = some (A, B) → sparseSolve A B = some sol →
        (L2projection intg s0).2.nrows = B.length / A.length
        ∧ (L2projection intg s0).2.ncols = A.length
        ∧ (1 ≤ j → j ≤ B.length / A.length → 1 ≤ i → i ≤ A.length →
            matEntry (L2projection intg s0).2 j i
              = sol.getD (i + (j - 1) * A.length - 1) 0)) := by
  refine ⟨?_, ?_, ?_, ?_⟩
  · constructor
    · intro h
      rcases intg with _ | ⟨A2, B2⟩
      · simp [L2projection] at h
      · refine ⟨A2, B2, rfl, ?_⟩
        rcases hs : sparseSolve A2 B2 with _ | sol2
        · simp [L2projection, glbL2solve, hs] at h
        · simp
    · rintro ⟨A2, B2, rfl, hs⟩
      rcases hs2 : sparseSolve A2 B2 with _ | sol2
      · rw [hs2] at hs; simp at hs
      · simp [L2projection, glbL2solve, hs2]
  · rintro rfl; rfl
  · rintro rfl hs
    simp [L2projection, glbL2solve, hs]
  · rintro rfl hs
    simp only [L2projection, glbL2solve, hs]
    exact ⟨rfl, rfl, fun hj1 hj2 hi1 hi2 =>
      matEntry_buildSField sol (B.length / A.length) A.length j i
        hj1 hj2 hi1 hi2⟩

/-- Witness for `L2projection_spec`: the 1×1 system `2·x = 4`. -/
theorem L2projection_spec_witness :
    (L2projection (some ([[2]], [4])) ⟨0, 0, []⟩).1 = true
    ∧ (L2projection (some ([[2]], [4])) ⟨0, 0, []⟩).2.nrows = 1
    ∧ (L2projection (some ([[2]], [4])) ⟨0, 0, []⟩).2.ncols = 1
    ∧ matEntry (L2projection (some ([[2]], [4])) ⟨0, 0, []⟩).2 1 1 = 2 := by
  have h := L2projection_spec (some ([[2]], [4])) ⟨0, 0, []⟩ [[2]] [4] [2] 1 1
  have hs : sparseSolve [[2]] [4] = some [2] := by decide
  have h4 := h.2.2.2 rfl hs
  refine ⟨h.1.2 ⟨[[2]], [4], rfl, by decide⟩, ?_, ?_, ?_⟩
  · simpa using h4.1
  · simpa using h4.2.1
  · rw [h4.2.2 le_rfl (by decide) le_rfl (by decide)]
    decide

end IFEM
